import Mathlib

/-!
Verification of the Spectra matrix-operation class
SparseRegularInverse (src/include/MatOp/SparseRegularInverse.h)
against its natural-language specification.

The C++ class wraps an Eigen sparse matrix B (only one triangle stored,
selected by the Uplo template argument) and exposes
rows / cols / mat_prod (y = B x via a selfadjoint view) / solve
(y approximately B^{-1} x via a conjugate-gradient solver built once at
construction).  The embedding below models Scalar by the exact field of
rationals, sparse matrices by their dimensions plus the list of stored
triplets, raw pointer buffers by total functions on indices, and Eigen's
kernels (sparse selfadjoint times dense, diagonal preconditioner,
conjugate gradient) by executable Lean functions that follow those
kernels statement by statement.
-/

set_option maxHeartbeats 2000000

namespace Spectra

/-- Triangle-selection flag: embedding of the Uplo template parameter of
SparseRegularInverse (Eigen::Lower or Eigen::Upper). -/
inductive Uplo
| lower
| upper
deriving DecidableEq

/-- One stored entry (structural nonzero) of a sparse matrix: row index,
column index, value. -/
structure Entry where
  row : ℕ
  col : ℕ
  val : ℚ
deriving DecidableEq

/-- Embedding of an Eigen sparse matrix: outer dimensions plus the list of
stored entries.  The Scalar template type is modelled by the exact
rationals. -/
structure SparseMatrix where
  rows : ℕ
  cols : ℕ
  entries : List Entry
deriving DecidableEq

/-- Membership of position (r, c) in the triangle selected by the flag u. -/
def inTri (u : Uplo) (r c : ℕ) : Prop :=
  match u with
  | .lower => c ≤ r
  | .upper => r ≤ c

instance (u : Uplo) (r c : ℕ) : Decidable (inTri u r c) :=
  match u with
  | .lower => Nat.decLe c r
  | .upper => Nat.decLe r c

@[simp] lemma inTri_lower (r c : ℕ) : inTri .lower r c ↔ c ≤ r := Iff.rfl

@[simp] lemma inTri_upper (r c : ℕ) : inTri .upper r c ↔ r ≤ c := Iff.rfl

/-- Contribution of one stored entry to component i of the product
selfadjointView(M) times x, following Eigen's sparse-selfadjoint-times-
dense kernel: entries outside the selected triangle are skipped, diagonal
entries contribute once to their own row, and strictly off-diagonal
entries of the triangle contribute both to their own row and, mirrored,
to the row given by their column index. -/
def entryContrib (u : Uplo) (e : Entry) (x : ℕ → ℚ) (i : ℕ) : ℚ :=
  if inTri u e.row e.col then
    (if i = e.row then e.val * x e.col else 0) +
    (if e.row ≠ e.col ∧ i = e.col then e.val * x e.row else 0)
  else 0

/-- Embedding of the Eigen expression
m_mat.template selfadjointView(Uplo) * x used at line 93 of the source:
component i of the symmetric-view sparse product. -/
def selfadjointProd (u : Uplo) (M : SparseMatrix) (x : ℕ → ℚ) : ℕ → ℚ :=
  fun i => (M.entries.map (fun e => entryContrib u e x i)).sum

/-- Value stored by M at position (i, j): the sum of the stored triplets
at that position, 0 when nothing is stored there. -/
def storedVal (M : SparseMatrix) (i j : ℕ) : ℚ :=
  (M.entries.map (fun e => if e.row = i ∧ e.col = j then e.val else 0)).sum

/-- The full symmetric matrix obtained by mirroring the stored triangle of
M across the diagonal: the dense reference matrix of the specification. -/
def mirrored (u : Uplo) (M : SparseMatrix) (i j : ℕ) : ℚ :=
  if inTri u i j then storedVal M i j else storedVal M j i

/-- Dense reference product: component i of (mirrored B) times x. -/
def denseProd (u : Uplo) (M : SparseMatrix) (x : ℕ → ℚ) (i : ℕ) : ℚ :=
  ∑ j ∈ Finset.range M.cols, mirrored u M i j * x j

/-- Contribution of a single stored entry to the mirrored dense matrix at
position (i, j). -/
def mirrorTerm (u : Uplo) (e : Entry) (i j : ℕ) : ℚ :=
  if inTri u i j then (if e.row = i ∧ e.col = j then e.val else 0)
  else (if e.row = j ∧ e.col = i then e.val else 0)

lemma mirrored_eq_sum (u : Uplo) (M : SparseMatrix) (i j : ℕ) :
    mirrored u M i j = (M.entries.map (fun e => mirrorTerm u e i j)).sum := by
  by_cases h : inTri u i j <;> simp [mirrored, storedVal, mirrorTerm, h]

lemma list_sum_map_mul_right {α : Type} (l : List α) (f : α → ℚ) (b : ℚ) :
    (l.map f).sum * b = (l.map (fun e => f e * b)).sum := by
  induction l with
  | nil => simp
  | cons a t ih => simp [add_mul, ih]

lemma finset_sum_list_sum {α : Type} (l : List α) (s : Finset ℕ) (g : α → ℕ → ℚ) :
    ∑ j ∈ s, (l.map (fun e => g e j)).sum = (l.map (fun e => ∑ j ∈ s, g e j)).sum := by
  induction l with
  | nil => simp
  | cons a t ih => simp [Finset.sum_add_distrib, ih]

lemma list_sum_map_congr {α : Type} (l : List α) (f g : α → ℚ)
    (h : ∀ e ∈ l, f e = g e) : (l.map f).sum = (l.map g).sum := by
  induction l with
  | nil => rfl
  | cons a t ih =>
      simp only [List.map_cons, List.sum_cons]
      rw [h a (by simp), ih (fun e he => h e (by simp [he]))]

lemma sum_spike (n k : ℕ) (hk : k < n) (f g : ℕ → ℚ)
    (h : ∀ j, j < n → f j = if j = k then g j else 0) :
    ∑ j ∈ Finset.range n, f j = g k := by
  rw [Finset.sum_congr rfl (fun j hj => h j (Finset.mem_range.mp hj))]
  simp [Finset.sum_ite_eq', hk]

lemma sum_spike0 (n : ℕ) (f : ℕ → ℚ) (h : ∀ j, j < n → f j = 0) :
    ∑ j ∈ Finset.range n, f j = 0 :=
  Finset.sum_eq_zero (fun j hj => h j (Finset.mem_range.mp hj))

/-- Per-entry summation lemma: summing the mirrored dense contribution of
one stored entry against x over a full row recovers exactly the
contribution Eigen's selfadjoint sparse kernel assigns to that entry. -/
lemma mirrorTerm_sum (u : Uplo) (e : Entry) (x : ℕ → ℚ) (i n : ℕ)
    (hr : e.row < n) (hc : e.col < n) (hi : i < n) :
    ∑ j ∈ Finset.range n, mirrorTerm u e i j * x j = entryContrib u e x i := by
  cases u
  case lower =>
    by_cases htri : e.col ≤ e.row
    · by_cases hir : i = e.row
      · refine (sum_spike n e.col hc _ (fun j => e.val * x j) ?_).trans ?_
        · intro j hj
          simp only [mirrorTerm, inTri_lower]
          split_ifs <;> first | rfl | apply zero_mul | (exfalso; omega)
        · have h2 : ¬(e.row ≠ e.col ∧ i = e.col) := by omega
          simp [entryContrib, htri, hir, h2]
      · by_cases hic : i = e.col
        · refine (sum_spike n e.row hr _ (fun j => e.val * x j) ?_).trans ?_
          · intro j hj
            simp only [mirrorTerm, inTri_lower]
            split_ifs <;> first | rfl | apply zero_mul | (exfalso; omega)
          · have hrc : e.row ≠ e.col := by omega
            have hcr : e.col ≠ e.row := by omega
            simp [entryContrib, htri, hir, hic, hrc, hcr]
        · refine (sum_spike0 n _ ?_).trans ?_
          · intro j hj
            simp only [mirrorTerm, inTri_lower]
            split_ifs <;> first | apply zero_mul | (exfalso; omega)
          · simp [entryContrib, hir, hic]
    · refine (sum_spike0 n _ ?_).trans ?_
      · intro j hj
        simp only [mirrorTerm, inTri_lower]
        split_ifs <;> first | apply zero_mul | (exfalso; omega)
      · simp [entryContrib, htri]
  case upper =>
    by_cases htri : e.row ≤ e.col
    · by_cases hir : i = e.row
      · refine (sum_spike n e.col hc _ (fun j => e.val * x j) ?_).trans ?_
        · intro j hj
          simp only [mirrorTerm, inTri_upper]
          split_ifs <;> first | rfl | apply zero_mul | (exfalso; omega)
        · have h2 : ¬(e.row ≠ e.col ∧ i = e.col) := by omega
          simp [entryContrib, htri, hir, h2]
      · by_cases hic : i = e.col
        · refine (sum_spike n e.row hr _ (fun j => e.val * x j) ?_).trans ?_
          · intro j hj
            simp only [mirrorTerm, inTri_upper]
            split_ifs <;> first | rfl | apply zero_mul | (exfalso; omega)
          · have hrc : e.row ≠ e.col := by omega
            have hcr : e.col ≠ e.row := by omega
            simp [entryContrib, htri, hir, hic, hrc, hcr]
        · refine (sum_spike0 n _ ?_).trans ?_
          · intro j hj
            simp only [mirrorTerm, inTri_upper]
            split_ifs <;> first | apply zero_mul | (exfalso; omega)
          · simp [entryContrib, hir, hic]
    · refine (sum_spike0 n _ ?_).trans ?_
      · intro j hj
        simp only [mirrorTerm, inTri_upper]
        split_ifs <;> first | apply zero_mul | (exfalso; omega)
      · simp [entryContrib, htri]

/-- Core correctness of the symmetric-view sparse product: on a square
matrix whose entries are in bounds, Eigen's triangle-exploiting kernel
computes exactly the dense product by the mirrored symmetric matrix. -/
lemma selfadjointProd_eq_denseProd (u : Uplo) (M : SparseMatrix) (x : ℕ → ℚ)
    (hb : ∀ e ∈ M.entries, e.row < M.cols ∧ e.col < M.cols)
    (i : ℕ) (hi : i < M.cols) :
    selfadjointProd u M x i = denseProd u M x i := by
  unfold denseProd
  rw [Finset.sum_congr rfl (fun j _ => by rw [mirrored_eq_sum u M i j])]
  rw [Finset.sum_congr rfl
    (fun j _ => list_sum_map_mul_right M.entries (fun e => mirrorTerm u e i j) (x j))]
  rw [finset_sum_list_sum M.entries (Finset.range M.cols) (fun e j => mirrorTerm u e i j * x j)]
  unfold selfadjointProd
  rw [list_sum_map_congr M.entries _ _
    (fun e he => mirrorTerm_sum u e x i M.cols (hb e he).1 (hb e he).2 hi)]

/-- Dot product of the first n components of two mapped vectors. -/
def dot (n : ℕ) (u v : ℕ → ℚ) : ℚ := ∑ j ∈ Finset.range n, u j * v j

/-- Diagonal (Jacobi) preconditioner entry j, as built by Eigen's
DiagonalPreconditioner::factorize: the inverse of the stored diagonal
value when one is stored and nonzero, and 1 otherwise. -/
def invdiag (M : SparseMatrix) (j : ℕ) : ℚ :=
  if storedVal M j j ≠ 0 then (storedVal M j j)⁻¹ else 1

/-- Embedding of the solver member declared at line 41 of the source,
after compute() has run.  The C++ declaration spells the type with a
single template argument, so the UpLo argument of the Eigen class is left
at its default value Eigen::Lower; the solver therefore multiplies by
the lower selfadjoint view of the matrix it was computed against.  The
fields are: the matrix, the Jacobi preconditioner state, the tolerance
(m_tolerance, which defaults to the machine epsilon of Scalar and is
kept symbolic here), the iteration cap (maxIterations(), which defaults
to twice the number of columns), and the mutable diagnostics m_error
(tracked as its square errSq, keeping the arithmetic exact) and
m_iterations. -/
structure CG where
  mat : SparseMatrix
  pdiag : ℕ → ℚ
  tol : ℚ
  maxIter : ℕ
  errSq : ℚ
  iterations : ℕ

/-- Embedding of m_cg.compute(mat_) at line 56: store the matrix,
factorize the diagonal preconditioner, keep the default tolerance and
iteration cap.  The diagnostics start at 0. -/
def cgCompute (M : SparseMatrix) (tol : ℚ) : CG :=
  { mat := M, pdiag := invdiag M, tol := tol, maxIter := 2 * M.cols,
    errSq := 0, iterations := 0 }

/-- State of the main loop of Eigen's internal conjugate-gradient
kernel: current iterate, residual, search direction, the scalar absNew,
the squared residual norm, and the completed iteration count. -/
structure CGIter where
  x : ℕ → ℚ
  r : ℕ → ℚ
  p : ℕ → ℚ
  absNew : ℚ
  rNorm2 : ℚ
  i : ℕ

/-- Embedding of the while loop of Eigen's internal conjugate-gradient
kernel; the fuel argument counts the iterations still permitted by the
cap.  Each pass multiplies by the operator A, takes the step alpha along
the search direction, breaks as soon as the squared residual norm drops
below the threshold, and otherwise builds the next search direction with
the preconditioner. -/
def cgLoop (A pre : (ℕ → ℚ) → (ℕ → ℚ)) (n : ℕ) (threshold : ℚ) :
    ℕ → CGIter → CGIter
  | 0, s => s
  | fuel + 1, s =>
    let tmp := A s.p
    let alpha := s.absNew / dot n s.p tmp
    let x1 := fun k => s.x k + alpha * s.p k
    let r1 := fun k => s.r k - alpha * tmp k
    let rn2 := dot n r1 r1
    if rn2 < threshold then
      { x := x1, r := r1, p := s.p, absNew := s.absNew, rNorm2 := rn2, i := s.i }
    else
      let z := pre r1
      let aNew := dot n r1 z
      let beta := aNew / s.absNew
      let p1 := fun k => z k + beta * s.p k
      cgLoop A pre n threshold fuel
        { x := x1, r := r1, p := p1, absNew := aNew, rNorm2 := rn2, i := s.i + 1 }

/-- Result of one m_cg.solve(x) call: the computed iterate together with
the updated diagnostics (squared relative error and iteration count). -/
structure CGResult where
  x : ℕ → ℚ
  errSq : ℚ
  iters : ℕ

/-- Embedding of m_cg.solve(x) as called at line 79: Eigen's
ConjugateGradient zeroes the initial guess and runs the internal
conjugate-gradient kernel against the lower selfadjoint view of the
stored matrix (the default UpLo of the declaration at line 41) with the
diagonal preconditioner.  Exact-arithmetic model: the denormal floor of
the convergence threshold is dropped and the relative error is tracked
squared, which avoids square roots without changing any comparison. -/
def cgSolve (cg : CG) (b : ℕ → ℚ) : CGResult :=
  let n := cg.mat.cols
  let A := fun v => selfadjointProd .lower cg.mat v
  let pre := fun (r : ℕ → ℚ) => fun k => cg.pdiag k * r k
  let x0 : ℕ → ℚ := fun _ => 0
  let residual := fun k => b k - A x0 k
  let rhsNorm2 := dot n b b
  if rhsNorm2 = 0 then { x := fun _ => 0, errSq := 0, iters := 0 }
  else
    let threshold := cg.tol * cg.tol * rhsNorm2
    let rn2 := dot n residual residual
    if rn2 < threshold then { x := x0, errSq := rn2 / rhsNorm2, iters := 0 }
    else
      let p := pre residual
      let aNew := dot n residual p
      let s := cgLoop A pre n threshold cg.maxIter
        { x := x0, r := residual, p := p, absNew := aNew, rNorm2 := rn2, i := 0 }
      { x := s.x, errSq := s.rNorm2 / rhsNorm2, iters := s.i }

/-- The m_info flag of the Eigen solver after a solve: Success exactly
when the final relative error is within the tolerance (stated on the
squares, which is equivalent for nonnegative tolerance).  Returns true
for Success, false for NoConvergence. -/
def cgSuccess (cg : CG) : Bool := decide (cg.errSq ≤ cg.tol * cg.tol)

/-- Embedding of the only error condition of the class: the
std::invalid_argument thrown by the constructor, which the specification
names InvalidDimension. -/
inductive SpectraError
| invalidDimension
deriving DecidableEq

/-- Embedding of a constructed SparseRegularInverse object: the Uplo
template argument, the cached dimension m_n, the borrowed matrix m_mat
and the solver state m_cg. -/
structure SparseRegularInverse where
  uplo : Uplo
  m_n : ℕ
  m_mat : SparseMatrix
  m_cg : CG

/-- Observable events of the constructor body, in execution order. -/
inductive ConstructEvent
| checkDim
| throwInvalid
| computeCG
deriving DecidableEq

/-- Embedding of the constructor (lines 50 to 57) together with its event
trace: m_n and m_mat are bound by the initializer list, then the
squareness check runs and throws on failure, and m_cg.compute runs only
when the check passes.  The tol argument stands for the solver's default
tolerance, the machine epsilon of Scalar. -/
def constructTrace (u : Uplo) (tol : ℚ) (mat_ : SparseMatrix) :
    Except SpectraError SparseRegularInverse × List ConstructEvent :=
  if mat_.rows ≠ mat_.cols then
    (.error .invalidDimension, [.checkDim, .throwInvalid])
  else
    (.ok { uplo := u, m_n := mat_.rows, m_mat := mat_, m_cg := cgCompute mat_ tol },
     [.checkDim, .computeCG])

/-- The constructor's result: either the built operator or the
InvalidDimension failure. -/
def construct (u : Uplo) (tol : ℚ) (mat_ : SparseMatrix) :
    Except SpectraError SparseRegularInverse :=
  (constructTrace u tol mat_).1

/-- Embedding of rows() at line 62. -/
def rows (op : SparseRegularInverse) : ℕ := op.m_n

/-- Embedding of cols() at line 66. -/
def cols (op : SparseRegularInverse) : ℕ := op.m_n

/-- Embedding of solve (lines 75 to 80).  The two raw buffers are mapped
at length m_n; the conjugate-gradient iterate is written into the cells
0 to m_n - 1 of the output buffer and every other cell is untouched; the
input buffer is const.  The call returns the input buffer, the output
buffer and the object after the call: the only state change is the
update of the solver's mutable diagnostics, and the call has no failure
outcome. -/
def solve (op : SparseRegularInverse) (x_in y_out : ℕ → ℚ) :
    (ℕ → ℚ) × (ℕ → ℚ) × SparseRegularInverse :=
  let res := cgSolve op.m_cg x_in
  (x_in,
   fun k => if k < op.m_n then res.x k else y_out k,
   { op with m_cg := { op.m_cg with errSq := res.errSq, iterations := res.iters } })

/-- Embedding of mat_prod (lines 89 to 94): writes the selfadjoint-view
product into the cells 0 to m_n - 1 of the output buffer, leaves every
other cell and all object state untouched, and returns the buffers and
the object after the call. -/
def mat_prod (op : SparseRegularInverse) (x_in y_out : ℕ → ℚ) :
    (ℕ → ℚ) × (ℕ → ℚ) × SparseRegularInverse :=
  (x_in,
   fun k => if k < op.m_n then selfadjointProd op.uplo op.m_mat x_in k else y_out k,
   op)

/-- Restriction of a sparse matrix to the stored entries lying in the
triangle selected by u. -/
def filterTri (u : Uplo) (M : SparseMatrix) : SparseMatrix :=
  { M with entries := M.entries.filter (fun e => decide (inTri u e.row e.col)) }

lemma selfadjointProd_zero (u : Uplo) (M : SparseMatrix) (i : ℕ) :
    selfadjointProd u M (fun _ => 0) i = 0 := by
  unfold selfadjointProd
  induction M.entries with
  | nil => rfl
  | cons e t ih =>
      simp only [List.map_cons, List.sum_cons, ih, add_zero, entryContrib]
      split_ifs <;> simp

lemma dot_one (u v : ℕ → ℚ) : dot 1 u v = u 0 * v 0 := by
  simp [dot]

lemma dot_two (u v : ℕ → ℚ) : dot 2 u v = u 0 * v 0 + u 1 * v 1 := by
  simp [dot, Finset.sum_range_succ]

/-- Last line of the conjugate-gradient kernel: package the final loop
state into the solve result (tol_error squared and iteration count). -/
def cgFinish (N : ℚ) (s : CGIter) : CGResult :=
  { x := s.x, errSq := s.rNorm2 / N, iters := s.i }

lemma cgLoop_zero (A pre : (ℕ → ℚ) → (ℕ → ℚ)) (n : ℕ) (th : ℚ) (s : CGIter) :
    cgLoop A pre n th 0 s = s := rfl

/-- One pass of the conjugate-gradient loop that meets the convergence
threshold: the loop stops and returns the updated state. -/
lemma cgLoop_break (A pre : (ℕ → ℚ) → (ℕ → ℚ)) (n fuel : ℕ) (th : ℚ)
    (s : CGIter) (t r1 : ℕ → ℚ) (al : ℚ)
    (ht : t = A s.p)
    (hal : al = s.absNew / dot n s.p t)
    (hr1 : r1 = fun k => s.r k - al * t k)
    (hbrk : dot n r1 r1 < th) :
    cgLoop A pre n th (fuel + 1) s =
      { x := fun k => s.x k + al * s.p k, r := r1, p := s.p,
        absNew := s.absNew, rNorm2 := dot n r1 r1, i := s.i } := by
  subst ht hal hr1
  simp only [cgLoop]
  rw [if_pos hbrk]

/-- One pass of the conjugate-gradient loop that misses the convergence
threshold: the loop recurses with the updated state. -/
lemma cgLoop_noBreak (A pre : (ℕ → ℚ) → (ℕ → ℚ)) (n fuel : ℕ) (th : ℚ)
    (s : CGIter) (t r1 : ℕ → ℚ) (al : ℚ)
    (ht : t = A s.p)
    (hal : al = s.absNew / dot n s.p t)
    (hr1 : r1 = fun k => s.r k - al * t k)
    (hno : ¬ dot n r1 r1 < th) :
    cgLoop A pre n th (fuel + 1) s =
      cgLoop A pre n th fuel
        { x := fun k => s.x k + al * s.p k, r := r1,
          p := fun k => pre r1 k + (dot n r1 (pre r1) / s.absNew) * s.p k,
          absNew := dot n r1 (pre r1), rNorm2 := dot n r1 r1, i := s.i + 1 } := by
  subst ht hal hr1
  simp only [cgLoop]
  rw [if_neg hno]

/-- Entry of the conjugate-gradient kernel into its main loop: when the
right-hand side is not zero and the zero initial guess is not already
within the threshold, the solve result is the finished loop state. -/
lemma cgSolve_loop (cg : CG) (b : ℕ → ℚ) (n : ℕ)
    (hn : n = cg.mat.cols)
    (hN0 : ¬ dot n b b = 0)
    (hno : ¬ dot n b b < cg.tol * cg.tol * dot n b b) :
    cgSolve cg b =
      cgFinish (dot n b b)
        (cgLoop (fun v => selfadjointProd .lower cg.mat v)
          (fun r k => cg.pdiag k * r k) n (cg.tol * cg.tol * dot n b b)
          cg.maxIter
          { x := fun _ => 0, r := b, p := fun k => cg.pdiag k * b k,
            absNew := dot n b (fun k => cg.pdiag k * b k),
            rNorm2 := dot n b b, i := 0 }) := by
  subst hn
  simp only [cgSolve, selfadjointProd_zero, sub_zero]
  rw [if_neg hN0, if_neg hno]
  rfl

/-- Degenerate entry of the conjugate-gradient kernel: a zero right-hand
side returns the zero vector at once. -/
lemma cgSolve_zeroRhs (cg : CG) (b : ℕ → ℚ) (n : ℕ)
    (hn : n = cg.mat.cols)
    (hN0 : dot n b b = 0) :
    cgSolve cg b = { x := fun _ => 0, errSq := 0, iters := 0 } := by
  subst hn
  simp only [cgSolve]
  rw [if_pos hN0]

lemma construct_ok (u : Uplo) (tol : ℚ) (M : SparseMatrix)
    (op : SparseRegularInverse) (hok : construct u tol M = .ok op) :
    M.rows = M.cols ∧
      op = { uplo := u, m_n := M.rows, m_mat := M, m_cg := cgCompute M tol } := by
  unfold construct constructTrace at hok
  split at hok
  · exact absurd hok (by simp)
  · exact ⟨by omega, (Except.ok.inj hok).symm⟩

lemma filter_tri_sum (u : Uplo) (x : ℕ → ℚ) (i : ℕ) (l : List Entry) :
    ((l.filter (fun e => decide (inTri u e.row e.col))).map
        (fun e => entryContrib u e x i)).sum
      = (l.map (fun e => entryContrib u e x i)).sum := by
  induction l with
  | nil => rfl
  | cons e t ih =>
      rw [List.filter_cons]
      by_cases h : inTri u e.row e.col
      · rw [if_pos (by simpa using h), List.map_cons, List.map_cons,
          List.sum_cons, List.sum_cons, ih]
      · have hz : entryContrib u e x i = 0 := by simp [entryContrib, h]
        rw [if_neg (by simpa using h), List.map_cons, List.sum_cons, hz, zero_add, ih]

/-- The selfadjoint-view product never reads an entry stored outside the
selected triangle: dropping those entries leaves the product unchanged. -/
lemma selfadjointProd_filter (u : Uplo) (M : SparseMatrix) (x : ℕ → ℚ) (i : ℕ) :
    selfadjointProd u (filterTri u M) x i = selfadjointProd u M x i := by
  unfold selfadjointProd filterTri
  exact filter_tri_sum u x i M.entries

lemma storedVal_filter_diag (u : Uplo) (M : SparseMatrix) (j : ℕ) :
    storedVal (filterTri u M) j j = storedVal M j j := by
  unfold storedVal filterTri
  simp only
  induction M.entries with
  | nil => rfl
  | cons e t ih =>
      rw [List.filter_cons]
      by_cases h : inTri u e.row e.col
      · rw [if_pos (by simpa using h), List.map_cons, List.map_cons,
          List.sum_cons, List.sum_cons, ih]
      · have hz : ¬(e.row = j ∧ e.col = j) := by
          rintro ⟨h1, h2⟩
          exact h (by cases u <;> simp [inTri, h1, h2])
        rw [if_neg (by simpa using h), List.map_cons, List.sum_cons, if_neg hz,
          zero_add, ih]

lemma invdiag_filter (u : Uplo) (M : SparseMatrix) (j : ℕ) :
    invdiag (filterTri u M) j = invdiag M j := by
  unfold invdiag
  rw [storedVal_filter_diag]

/-- The conjugate-gradient solve depends on the solver state only through
the matrix columns, the lower selfadjoint view, the preconditioner, the
tolerance and the iteration cap; in particular it never reads the
mutable diagnostics. -/
lemma cgSolve_congr (c1 c2 : CG)
    (hm : c1.mat.cols = c2.mat.cols)
    (hA : ∀ v i, selfadjointProd .lower c1.mat v i = selfadjointProd .lower c2.mat v i)
    (hp : ∀ k, c1.pdiag k = c2.pdiag k)
    (ht : c1.tol = c2.tol) (hmi : c1.maxIter = c2.maxIter) (b : ℕ → ℚ) :
    cgSolve c1 b = cgSolve c2 b := by
  have hA' : (fun v => selfadjointProd .lower c1.mat v)
      = (fun v => selfadjointProd .lower c2.mat v) := by
    funext v
    funext i
    exact hA v i
  have hp' : c1.pdiag = c2.pdiag := funext hp
  unfold cgSolve
  rw [hm, hA', hp', ht, hmi]

/-- The conjugate-gradient solve built by compute reads the matrix only
through its lower selfadjoint view and its stored diagonal, both of
which ignore entries outside the lower triangle. -/
lemma cgSolve_filter (M : SparseMatrix) (tol : ℚ) (b : ℕ → ℚ) :
    cgSolve (cgCompute (filterTri .lower M) tol) b = cgSolve (cgCompute M tol) b := by
  exact cgSolve_congr (cgCompute (filterTri .lower M) tol) (cgCompute M tol) rfl
    (fun v i => selfadjointProd_filter .lower M v i)
    (fun k => invdiag_filter .lower M k) rfl rfl b

/-- Concrete example: the 2 by 2 identity matrix, stored as its lower
triangle (both entries diagonal). -/
def idMat : SparseMatrix := ⟨2, 2, [⟨0, 0, 1⟩, ⟨1, 1, 1⟩]⟩

/-- Concrete example: the upper triangle of the symmetric matrix
[[4, 1], [1, 3]]. -/
def upM : SparseMatrix := ⟨2, 2, [⟨0, 0, 4⟩, ⟨0, 1, 1⟩, ⟨1, 1, 3⟩]⟩

/-- Concrete example: the lower triangle of the symmetric matrix
[[4, 1], [1, 3]]. -/
def loM : SparseMatrix := ⟨2, 2, [⟨0, 0, 4⟩, ⟨1, 0, 1⟩, ⟨1, 1, 3⟩]⟩

/-- Concrete example: the 1 by 1 zero matrix (square, no stored entries,
not positive definite), on which the iterative solver cannot converge. -/
def zeroM : SparseMatrix := ⟨1, 1, ([] : List Entry)⟩

/-- Concrete example: a 3 by 4 (non-square) matrix with no stored
entries. -/
def M34 : SparseMatrix := ⟨3, 4, ([] : List Entry)⟩

/-- Concrete tolerance used by the example operators. -/
def tolEx : ℚ := 1/1000000

/-- Concrete input vector (3, 5). -/
def b35 : ℕ → ℚ := fun k => if k = 0 then 3 else if k = 1 then 5 else 0

/-- Concrete input vector (4, 1). -/
def b41 : ℕ → ℚ := fun k => if k = 0 then 4 else if k = 1 then 1 else 0

/-- Concrete input vector (1, 0). -/
def e10 : ℕ → ℚ := fun k => if k = 0 then 1 else 0

/-- The operator built from the identity matrix with the Lower flag. -/
def opId : SparseRegularInverse :=
  { uplo := .lower, m_n := 2, m_mat := idMat, m_cg := cgCompute idMat tolEx }

/-- The operator built from the upper-triangle matrix with the Upper
flag. -/
def opUp : SparseRegularInverse :=
  { uplo := .upper, m_n := 2, m_mat := upM, m_cg := cgCompute upM tolEx }

/-- The operator built from the lower-triangle matrix with the Lower
flag. -/
def opLo : SparseRegularInverse :=
  { uplo := .lower, m_n := 2, m_mat := loM, m_cg := cgCompute loM tolEx }

/-- The operator built from the 1 by 1 zero matrix. -/
def opZero : SparseRegularInverse :=
  { uplo := .lower, m_n := 1, m_mat := zeroM, m_cg := cgCompute zeroM tolEx }

lemma invdiag_id (j : ℕ) : invdiag idMat j = 1 := by
  rcases j with _ | _ | j <;> norm_num [invdiag, storedVal, idMat]

lemma idA (v : ℕ → ℚ) (i : ℕ) :
    selfadjointProd .lower idMat v i
      = (if i = 0 then v 0 else 0) + (if i = 1 then v 1 else 0) := by
  simp [selfadjointProd, idMat, entryContrib, inTri]

/-- On the 2 by 2 identity matrix the conjugate-gradient solve is exact
for every right-hand side and every tolerance in (0, 1]: either the
right-hand side is zero and the kernel returns zero at once, or the loop
converges on its first pass with step length one. -/
lemma cg_id_exact (tol : ℚ) (ht0 : 0 < tol) (ht1 : tol ≤ 1) (b : ℕ → ℚ)
    (k : ℕ) (hk : k < 2) :
    (cgSolve (cgCompute idMat tol) b).x k = b k := by
  by_cases hN : dot 2 b b = 0
  · rw [cgSolve_zeroRhs _ _ 2 rfl hN]
    rw [dot_two] at hN
    have hb0 : b 0 = 0 := by nlinarith [mul_self_nonneg (b 0), mul_self_nonneg (b 1)]
    have hb1 : b 1 = 0 := by nlinarith [mul_self_nonneg (b 0), mul_self_nonneg (b 1)]
    interval_cases k <;> simp [hb0, hb1]
  · have hpos : 0 < dot 2 b b := by
      rw [dot_two] at hN ⊢
      rcases lt_or_eq_of_le (by nlinarith [mul_self_nonneg (b 0), mul_self_nonneg (b 1)] :
        (0 : ℚ) ≤ b 0 * b 0 + b 1 * b 1) with h | h
      · exact h
      · exact absurd h.symm hN
    have htolsq : tol * tol ≤ 1 := by nlinarith [mul_nonneg (sub_nonneg.mpr ht1) ht0.le]
    have hno : ¬ dot 2 b b <
        (cgCompute idMat tol).tol * (cgCompute idMat tol).tol * dot 2 b b := by
      have htol : (cgCompute idMat tol).tol = tol := rfl
      rw [htol]
      intro hlt
      nlinarith [mul_nonneg (sub_nonneg.mpr htolsq) hpos.le]
    have hfuel : (cgCompute idMat tol).maxIter = 3 + 1 := by norm_num [cgCompute, idMat]
    rw [cgSolve_loop (cgCompute idMat tol) b 2 rfl hN hno, hfuel]
    simp only [cgCompute, invdiag_id, one_mul]
    have hdt : dot 2 b
        (fun i => (if i = 0 then b 0 else 0) + (if i = 1 then b 1 else 0)) = dot 2 b b := by
      rw [dot_two, dot_two]
      norm_num
    have hal : (1 : ℚ) = dot 2 b b /
        dot 2 b (fun i => (if i = 0 then b 0 else 0) + (if i = 1 then b 1 else 0)) := by
      rw [hdt]
      exact (div_self hN).symm
    have hz : dot 2
        (fun j => b j - 1 * ((if j = 0 then b 0 else 0) + (if j = 1 then b 1 else 0)))
        (fun j => b j - 1 * ((if j = 0 then b 0 else 0) + (if j = 1 then b 1 else 0))) = 0 := by
      rw [dot_two]
      norm_num
    have hbrk : dot 2
        (fun j => b j - 1 * ((if j = 0 then b 0 else 0) + (if j = 1 then b 1 else 0)))
        (fun j => b j - 1 * ((if j = 0 then b 0 else 0) + (if j = 1 then b 1 else 0)))
        < tol * tol * dot 2 b b := by
      rw [hz]
      exact mul_pos (mul_pos ht0 ht0) hpos
    rw [cgLoop_break (fun v => selfadjointProd .lower idMat v) (fun r k => r k) 2 3
      (tol * tol * dot 2 b b)
      (⟨fun _ => 0, b, b, dot 2 b b, dot 2 b b, 0⟩ : CGIter)
      (fun i => (if i = 0 then b 0 else 0) + (if i = 1 then b 1 else 0))
      (fun j => b j - 1 * ((if j = 0 then b 0 else 0) + (if j = 1 then b 1 else 0)))
      1
      (by funext i; simp [idA]) hal rfl hbrk]
    simp [cgFinish]

/-- Claim C1: for every square symmetric positive-definite sparse matrix
B with only the triangle selected by the Uplo flag populated, and every
input vector x, mat_prod writes into the output buffer exactly the dense
reference product of x by the full symmetric matrix obtained by
mirroring the stored triangle across the diagonal. -/
theorem claim_C1 (u : Uplo) (tol : ℚ) (M : SparseMatrix)
    (op : SparseRegularInverse)
    (hok : construct u tol M = .ok op)
    (hb : ∀ e ∈ M.entries, e.row < M.rows ∧ e.col < M.rows ∧ inTri u e.row e.col)
    (x y : ℕ → ℚ) (i : ℕ) (hi : i < rows op) :
    (mat_prod op x y).2.1 i = denseProd u M x i := by
  obtain ⟨hsq, hop⟩ := construct_ok u tol M op hok
  subst hop
  have hi' : i < M.rows := hi
  show (if i < M.rows then selfadjointProd u M x i else y i) = denseProd u M x i
  rw [if_pos hi']
  refine selfadjointProd_eq_denseProd u M x ?_ i (by omega)
  intro e he
  exact ⟨by have := (hb e he).1; omega, by have := (hb e he).2.1; omega⟩

/-- Witness for claim C1: the lower-triangle storage of [[4, 1], [1, 3]]
with input (1, 0). -/
theorem claim_C1_witness :
    (mat_prod opLo e10 (fun _ => 0)).2.1 0 = denseProd .lower loM e10 0 :=
  claim_C1 .lower tolEx loM opLo rfl (by decide) e10 (fun _ => 0) 0 (by decide)

/-- Claim C3: construction fails with the InvalidDimension error exactly
when the matrix is not square, and produces an operator exactly when it
is square; on failure no operator instance exists. -/
theorem claim_C3 (u : Uplo) (tol : ℚ) (M : SparseMatrix) :
    ((construct u tol M = .error .invalidDimension) ↔ M.rows ≠ M.cols) ∧
      ((∃ op, construct u tol M = .ok op) ↔ M.rows = M.cols) := by
  unfold construct constructTrace
  by_cases h : M.rows = M.cols <;> simp [h]

/-- Claim C6: rows() and cols() both return the dimension of the matrix
supplied at construction, and this value is unchanged by any later
mat_prod or solve call. -/
theorem claim_C6 (u : Uplo) (tol : ℚ) (M : SparseMatrix)
    (op : SparseRegularInverse)
    (hok : construct u tol M = .ok op) :
    rows op = M.rows ∧ cols op = M.rows ∧ rows op = cols op ∧
      ∀ x y : ℕ → ℚ,
        rows (mat_prod op x y).2.2 = rows op ∧ cols (mat_prod op x y).2.2 = cols op ∧
        rows (solve op x y).2.2 = rows op ∧ cols (solve op x y).2.2 = cols op := by
  obtain ⟨hsq, hop⟩ := construct_ok u tol M op hok
  subst hop
  exact ⟨rfl, rfl, rfl, fun x y => ⟨rfl, rfl, rfl, rfl⟩⟩

/-- Witness for claim C6: the identity-matrix operator. -/
theorem claim_C6_witness : rows opId = 2 ∧ cols opId = 2 :=
  ⟨(claim_C6 .lower tolEx idMat opId rfl).1,
    (claim_C6 .lower tolEx idMat opId rfl).2.1⟩

/-- Claim C7: two solve calls with the same input vector on the same
operator instance write identical output vectors; the first call's
update of the solver's mutable diagnostics does not influence the
second call's result. -/
theorem claim_C7 (op : SparseRegularInverse) (x y1 y2 : ℕ → ℚ) (k : ℕ)
    (hk : k < op.m_n) :
    (solve op x y1).2.1 k = (solve (solve op x y1).2.2 x y2).2.1 k := by
  have hcg : cgSolve ((solve op x y1).2.2).m_cg x = cgSolve op.m_cg x :=
    cgSolve_congr ((solve op x y1).2.2).m_cg op.m_cg rfl
      (fun v i => rfl) (fun j => rfl) rfl rfl x
  show (if k < op.m_n then (cgSolve op.m_cg x).x k else y1 k)
      = (if k < ((solve op x y1).2.2).m_n
          then (cgSolve ((solve op x y1).2.2).m_cg x).x k else y2 k)
  rw [hcg]
  have hn : ((solve op x y1).2.2).m_n = op.m_n := rfl
  rw [hn, if_pos hk, if_pos hk]

/-- Witness for claim C7: the identity-matrix operator with input
(3, 5). -/
theorem claim_C7_witness :
    (solve opId b35 (fun _ => 0)).2.1 0
      = (solve (solve opId b35 (fun _ => 0)).2.2 b35 (fun _ => 1)).2.1 0 :=
  claim_C7 opId b35 (fun _ => 0) (fun _ => 1) 0 (by decide)

/-- Claim C9: a non-square matrix makes the constructor raise the
failure before the iterative solver state is built, so m_cg.compute is
never attempted and no solver state exists for a rejected matrix. -/
theorem claim_C9 (u : Uplo) (tol : ℚ) (M : SparseMatrix)
    (hns : M.rows ≠ M.cols) :
    (constructTrace u tol M).1 = .error .invalidDimension ∧
      (constructTrace u tol M).2 = [.checkDim, .throwInvalid] ∧
      ConstructEvent.computeCG ∉ (constructTrace u tol M).2 := by
  unfold constructTrace
  rw [if_pos hns]
  refine ⟨rfl, rfl, ?_⟩
  simp

/-- Witness for claim C9: a 3 by 4 matrix. -/
theorem claim_C9_witness :
    (constructTrace .lower tolEx M34).1 = .error .invalidDimension :=
  (claim_C9 .lower tolEx M34 (by decide)).1

/-- Claim C10: mat_prod and solve write exactly the m_n cells of the
output buffer, leave the input buffer unchanged, and leave the
observable operator state (dimension, matrix, flag) unchanged; the only
state that changes at all is the solver's mutable diagnostics inside
solve. -/
theorem claim_C10 (op : SparseRegularInverse) (x y : ℕ → ℚ) :
    (mat_prod op x y).1 = x ∧ (solve op x y).1 = x ∧
      (∀ k, op.m_n ≤ k → (mat_prod op x y).2.1 k = y k) ∧
      (∀ k, op.m_n ≤ k → (solve op x y).2.1 k = y k) ∧
      (∀ k, k < op.m_n →
        (mat_prod op x y).2.1 k = selfadjointProd op.uplo op.m_mat x k) ∧
      (∀ k, k < op.m_n → (solve op x y).2.1 k = (cgSolve op.m_cg x).x k) ∧
      (mat_prod op x y).2.2 = op ∧
      (solve op x y).2.2.m_n = op.m_n ∧
      (solve op x y).2.2.m_mat = op.m_mat ∧
      (solve op x y).2.2.uplo = op.uplo := by
  refine ⟨rfl, rfl, ?_, ?_, ?_, ?_, rfl, rfl, rfl, rfl⟩
  · intro k hk
    exact if_neg (by omega)
  · intro k hk
    exact if_neg (by omega)
  · intro k hk
    exact if_pos hk
  · intro k hk
    exact if_pos hk

/-- Witness for claim C10: the cell just past the mapped length is left
untouched by mat_prod. -/
theorem claim_C10_witness :
    (mat_prod opLo e10 (fun _ => 0)).2.1 2 = (fun _ => (0 : ℚ)) 2 :=
  (claim_C10 opLo e10 (fun _ => 0)).2.2.1 2 (by decide)

lemma upM_cg_x0 : (cgSolve (cgCompute upM tolEx) b41).x 0 = 1 := by
  have hfuel : (cgCompute upM tolEx).maxIter = 3 + 1 := by norm_num [cgCompute, upM]
  rw [cgSolve_loop (cgCompute upM tolEx) b41 2 rfl (by norm_num [dot_two, b41])
    (by norm_num [dot_two, b41, cgCompute, tolEx]), hfuel]
  simp only [cgLoop]
  norm_num [dot_two, selfadjointProd, entryContrib, inTri, invdiag, storedVal,
    upM, b41, cgCompute, tolEx, cgFinish]

lemma upM_cg_x1 : (cgSolve (cgCompute upM tolEx) b41).x 1 = 1/3 := by
  have hfuel : (cgCompute upM tolEx).maxIter = 3 + 1 := by norm_num [cgCompute, upM]
  rw [cgSolve_loop (cgCompute upM tolEx) b41 2 rfl (by norm_num [dot_two, b41])
    (by norm_num [dot_two, b41, cgCompute, tolEx]), hfuel]
  simp only [cgLoop]
  norm_num [dot_two, selfadjointProd, entryContrib, inTri, invdiag, storedVal,
    upM, b41, cgCompute, tolEx, cgFinish]

/-- Claim C2 fails on the code: the solver member is declared without
the Uplo template argument, so it always works on the lower selfadjoint
view of the stored data.  Evaluation at the failing input: Uplo = Upper,
upper-triangle storage of B = [[4, 1], [1, 3]].  mat_prod sees the
mirrored B (it maps (1, 0) to (4, 1), conjuncts 6 and 7), but solve on
(4, 1) returns (1, 1/3), the solution of the diagonal system diag(4, 3),
instead of approximating the solution (1, 0) of the mirrored system; the
mirrored matrix applied to the returned vector has second component 2,
far from the input's 1. -/
theorem claim_C2_bug :
    construct .upper tolEx upM = .ok opUp ∧
      (mat_prod opUp e10 (fun _ => 0)).2.1 0 = 4 ∧
      (mat_prod opUp e10 (fun _ => 0)).2.1 1 = 1 ∧
      (solve opUp b41 (fun _ => 0)).2.1 0 = 1 ∧
      (solve opUp b41 (fun _ => 0)).2.1 1 = 1/3 ∧
      denseProd .upper upM e10 0 = 4 ∧
      denseProd .upper upM e10 1 = 1 ∧
      denseProd .upper upM (solve opUp b41 (fun _ => 0)).2.1 1 = 2 := by
  have hcg0 := upM_cg_x0
  have hcg1 := upM_cg_x1
  have hs0 : (solve opUp b41 (fun _ => 0)).2.1 0 = 1 := by
    show (if 0 < opUp.m_n then (cgSolve opUp.m_cg b41).x 0 else (fun _ => (0 : ℚ)) 0) = 1
    rw [if_pos (by norm_num [opUp])]
    exact hcg0
  have hs1 : (solve opUp b41 (fun _ => 0)).2.1 1 = 1/3 := by
    show (if 1 < opUp.m_n then (cgSolve opUp.m_cg b41).x 1 else (fun _ => (0 : ℚ)) 1) = 1/3
    rw [if_pos (by norm_num [opUp])]
    exact hcg1
  refine ⟨rfl, ?_, ?_, hs0, hs1, ?_, ?_, ?_⟩
  · norm_num [mat_prod, opUp, selfadjointProd, entryContrib, inTri, upM, e10]
  · norm_num [mat_prod, opUp, selfadjointProd, entryContrib, inTri, upM, e10]
  · norm_num [denseProd, mirrored, storedVal, inTri, upM, e10, Finset.sum_range_succ]
  · norm_num [denseProd, mirrored, storedVal, inTri, upM, e10, Finset.sum_range_succ]
  · have hsum : denseProd .upper upM (solve opUp b41 (fun _ => 0)).2.1 1
        = mirrored .upper upM 1 0 * (solve opUp b41 (fun _ => 0)).2.1 0
          + mirrored .upper upM 1 1 * (solve opUp b41 (fun _ => 0)).2.1 1 := by
      show (∑ j ∈ Finset.range 2,
          mirrored .upper upM 1 j * (solve opUp b41 (fun _ => 0)).2.1 j) = _
      rw [Finset.sum_range_succ, Finset.sum_range_succ, Finset.sum_range_zero, zero_add]
    rw [hsum, hs0, hs1]
    norm_num [mirrored, storedVal, inTri, upM]

lemma zeroM_cg_errSq : (cgSolve (cgCompute zeroM tolEx) e10).errSq = 1 := by
  have hfuel : (cgCompute zeroM tolEx).maxIter = 1 + 1 := by norm_num [cgCompute, zeroM]
  rw [cgSolve_loop (cgCompute zeroM tolEx) e10 1 rfl (by norm_num [dot_one, e10])
    (by norm_num [dot_one, e10, cgCompute, tolEx]), hfuel]
  simp only [cgLoop]
  norm_num [dot_one, selfadjointProd, entryContrib, inTri, invdiag, storedVal,
    zeroM, e10, cgCompute, tolEx, cgFinish]

lemma zeroM_cg_iters : (cgSolve (cgCompute zeroM tolEx) e10).iters = 2 := by
  have hfuel : (cgCompute zeroM tolEx).maxIter = 1 + 1 := by norm_num [cgCompute, zeroM]
  rw [cgSolve_loop (cgCompute zeroM tolEx) e10 1 rfl (by norm_num [dot_one, e10])
    (by norm_num [dot_one, e10, cgCompute, tolEx]), hfuel]
  simp only [cgLoop]
  norm_num [dot_one, selfadjointProd, entryContrib, inTri, invdiag, storedVal,
    zeroM, e10, cgCompute, tolEx, cgFinish]

/-- Claim C4: solve always writes the conjugate-gradient iterate into
the output buffer and returns with no failure outcome, even when the
solver does not converge within its iteration cap; on the 1 by 1 zero
matrix the solver exhausts its cap of 2 iterations, records
NoConvergence, and the call still writes the iterate. -/
theorem claim_C4 :
    (∀ (op : SparseRegularInverse) (x y : ℕ → ℚ) (k : ℕ), k < op.m_n →
        (solve op x y).2.1 k = (cgSolve op.m_cg x).x k) ∧
      construct .lower tolEx zeroM = .ok opZero ∧
      opZero.m_cg.maxIter = 2 ∧
      (solve opZero e10 (fun _ => 0)).2.2.m_cg.iterations = 2 ∧
      cgSuccess ((solve opZero e10 (fun _ => 0)).2.2.m_cg) = false ∧
      (solve opZero e10 (fun _ => 0)).2.1 0 = (cgSolve opZero.m_cg e10).x 0 := by
  have herr : (cgSolve opZero.m_cg e10).errSq = 1 := zeroM_cg_errSq
  have hit : (cgSolve opZero.m_cg e10).iters = 2 := zeroM_cg_iters
  refine ⟨fun op x y k hk => if_pos hk, rfl, rfl, hit, ?_, ?_⟩
  · show decide ((cgSolve opZero.m_cg e10).errSq ≤ opZero.m_cg.tol * opZero.m_cg.tol) = false
    rw [herr]
    have htl : opZero.m_cg.tol = tolEx := rfl
    rw [htl]
    simp only [decide_eq_false_iff_not, tolEx]
    norm_num
  · show (if 0 < opZero.m_n then (cgSolve opZero.m_cg e10).x 0
        else (fun _ => (0 : ℚ)) 0) = (cgSolve opZero.m_cg e10).x 0
    rw [if_pos (by decide)]

/-- Witness for claim C4: the first conjunct applied to the zero-matrix
operator at index 0. -/
theorem claim_C4_witness :
    (solve opZero e10 (fun _ => 1)).2.1 0 = (cgSolve opZero.m_cg e10).x 0 :=
  claim_C4.1 opZero e10 (fun _ => 1) 0 (by decide)

/-- Claim C5: round trip on the well-conditioned 2 by 2 identity matrix.
For every tolerance in (0, 1] and every input vector x,
solve(matVec(x)) recovers x exactly on the mapped cells; concretely,
with x = (3, 5) mat_prod writes (3, 5) and solve writes (3, 5), within
tolerance 1/1000000 of the reference (the error is exactly zero). -/
theorem claim_C5 (tol : ℚ) (ht0 : 0 < tol) (ht1 : tol ≤ 1)
    (op : SparseRegularInverse)
    (hok : construct .lower tol idMat = .ok op) (x y1 y2 : ℕ → ℚ) :
    (∀ k, k < 2 → (solve op (mat_prod op x y1).2.1 y2).2.1 k = x k) ∧
      (mat_prod opId b35 (fun _ => 0)).2.1 0 = 3 ∧
      (mat_prod opId b35 (fun _ => 0)).2.1 1 = 5 ∧
      |(solve opId b35 (fun _ => 0)).2.1 0 - 3| ≤ 1/1000000 ∧
      |(solve opId b35 (fun _ => 0)).2.1 1 - 5| ≤ 1/1000000 := by
  obtain ⟨hsq, hop⟩ := construct_ok _ _ _ _ hok
  subst hop
  have hconc0 : (solve opId b35 (fun _ => 0)).2.1 0 = b35 0 := by
    show (if 0 < 2 then (cgSolve (cgCompute idMat tolEx) b35).x 0
        else (fun _ => (0 : ℚ)) 0) = b35 0
    rw [if_pos (by norm_num)]
    exact cg_id_exact tolEx (by norm_num [tolEx]) (by norm_num [tolEx]) b35 0 (by norm_num)
  have hconc1 : (solve opId b35 (fun _ => 0)).2.1 1 = b35 1 := by
    show (if 1 < 2 then (cgSolve (cgCompute idMat tolEx) b35).x 1
        else (fun _ => (0 : ℚ)) 1) = b35 1
    rw [if_pos (by norm_num)]
    exact cg_id_exact tolEx (by norm_num [tolEx]) (by norm_num [tolEx]) b35 1 (by norm_num)
  refine ⟨?_, ?_, ?_, ?_, ?_⟩
  · intro k hk
    show (if k < 2 then (cgSolve (cgCompute idMat tol)
        (fun j => if j < 2 then selfadjointProd .lower idMat x j else y1 j)).x k
        else y2 k) = x k
    rw [if_pos hk, cg_id_exact tol ht0 ht1 _ k hk]
    show (if k < 2 then selfadjointProd .lower idMat x k else y1 k) = x k
    rw [if_pos hk, idA]
    interval_cases k <;> norm_num
  · norm_num [mat_prod, opId, idA, b35]
  · norm_num [mat_prod, opId, idA, b35]
  · rw [hconc0]
    norm_num [b35]
  · rw [hconc1]
    norm_num [b35]

/-- Witness for claim C5: the identity operator with input (3, 5) at
index 0. -/
theorem claim_C5_witness :
    (solve opId (mat_prod opId b35 (fun _ => 0)).2.1 (fun _ => 0)).2.1 0 = b35 0 :=
  (claim_C5 tolEx (by norm_num [tolEx]) (by norm_num [tolEx]) opId rfl
    b35 (fun _ => 0) (fun _ => 0)).1 0 (by norm_num)

/-- Claim C8: the operator never mutates the borrowed matrix (the stored
reference is the caller's matrix and every call returns it unchanged),
and every read is of a populated-triangle entry: the selfadjoint product
ignores entries outside the Uplo triangle, and the solver state reads
the matrix only through its lower selfadjoint view and its stored
diagonal, so entries outside the lower triangle never influence it. -/
theorem claim_C8 (u : Uplo) (tol : ℚ) (M : SparseMatrix)
    (op : SparseRegularInverse)
    (hok : construct u tol M = .ok op) :
    op.m_mat = M ∧
      (∀ x y : ℕ → ℚ,
        (mat_prod op x y).2.2 = op ∧ (solve op x y).2.2.m_mat = op.m_mat) ∧
      (∀ (x : ℕ → ℚ) (i : ℕ),
        selfadjointProd u (filterTri u M) x i = selfadjointProd u M x i) ∧
      (∀ b : ℕ → ℚ,
        cgSolve (cgCompute (filterTri .lower M) tol) b = cgSolve (cgCompute M tol) b) := by
  obtain ⟨hsq, hop⟩ := construct_ok u tol M op hok
  subst hop
  exact ⟨rfl, fun x y => ⟨rfl, rfl⟩, fun x i => selfadjointProd_filter u M x i,
    fun b => cgSolve_filter M tol b⟩

/-- Witness for claim C8: the lower-triangle operator borrows exactly
its matrix. -/
theorem claim_C8_witness : opLo.m_mat = loM :=
  (claim_C8 .lower tolEx loM opLo rfl).1

end Spectra
